import Mathlib

/-!
Shallow embedding of the Supertonic C++ inference helper (src/cpp/helper.cpp).

Modelling conventions:
* C++ `std::string` values are byte strings, modelled as `List ℕ` (one entry
  per byte; UTF-8 text literals appear as their byte sequences).
* C++ `float` values are modelled as exact rationals (`ℚ`); `static_cast<int>`
  of a float is truncation toward zero (`truncQ`).
* C++ `int64_t` values are `ℤ`; the C++ `/` on integers truncates toward zero
  and is modelled by `Int.tdiv`.
* `std::max_element` over an empty range is undefined behaviour in C++; the
  model returns 0 there, and theorems only quantify over non-empty inputs.
* The four ONNX sessions are external collaborators; they are modelled as an
  environment of opaque functions (`Env`), and every `Run` call is recorded in
  a trace (`ModelCall`).
-/

set_option autoImplicit false

abbrev ByteStr := List ℕ

abbrev Tensor3 := List (List (List ℚ))

/-- The six C-locale whitespace bytes recognised by `std::isspace`. -/
def isSpaceB (b : ℕ) : Bool := b == 32 || b == 9 || b == 10 || b == 11 || b == 12 || b == 13

/-- helper.cpp `trim`: drop leading and trailing whitespace bytes. -/
def trim (s : ByteStr) : ByteStr := ((s.dropWhile isSpaceB).reverse.dropWhile isSpaceB).reverse

/-- Model of `*std::max_element` on a `std::vector<int64_t>` (0 on the empty
    range, where the C++ is undefined; theorems assume non-emptiness). -/
def listMaxI : List ℤ → ℤ
  | [] => 0
  | x :: xs => xs.foldl max x

/-- Model of `*std::max_element` on a `std::vector<float>`. -/
def listMaxQ : List ℚ → ℚ
  | [] => 0
  | x :: xs => xs.foldl max x

/-- `static_cast<int>` of a float: truncation toward zero. -/
def truncQ (q : ℚ) : ℤ := if q < 0 then -(⌊-q⌋) else ⌊q⌋

/-- helper.cpp `lengthToMask` (default `max_len = -1` takes the maximum of
    `lengths`): a `[B][1][maxLen]` float tensor, 1.0 at positions below the
    item's length and 0.0 elsewhere. -/
def lengthToMask (lengths : List ℤ) (maxLen : ℤ := -1) : Tensor3 :=
  let m := if maxLen = -1 then listMaxI lengths else maxLen
  lengths.map fun len =>
    [(List.range m.toNat).map fun (j : ℕ) => if (j : ℤ) < len then (1 : ℚ) else 0]

/-- helper.cpp `getLatentMask`: wav lengths are converted to latent-frame
    lengths by ceiling division `(len + latentSize - 1) / latentSize`
    (C++ integer division truncates toward zero) and fed to `lengthToMask`. -/
def getLatentMask (wavLengths : List ℤ) (baseChunkSize chunkCompressFactor : ℤ) : Tensor3 :=
  let latentSize := baseChunkSize * chunkCompressFactor
  lengthToMask (wavLengths.map fun len => Int.tdiv (len + latentSize - 1) latentSize)

/-- Configuration record read from `tts.json`. -/
structure Config where
  sampleRate : ℕ
  baseChunkSize : ℕ
  chunkCompressFactor : ℕ
  latentDim : ℕ

/-- helper.cpp `TextToSpeech::sampleNoisyLatent`.  The RNG is injected as the
    function `noise b d t`.  The C++ multiplies every noise cell by
    `latent_mask[b][0][t]`; the model reads that cell with `getD` (default 0),
    which is in bounds exactly when the mask is as wide as the latent. -/
def sampleNoisyLatent (noise : ℕ → ℕ → ℕ → ℚ) (cfg : Config) (duration : List ℚ) :
    Tensor3 × Tensor3 :=
  let bsz := duration.length
  let wavLenMax : ℚ := listMaxQ duration * (cfg.sampleRate : ℚ)
  let wavLengths : List ℤ := duration.map fun d => truncQ (d * (cfg.sampleRate : ℚ))
  let chunkSize : ℕ := cfg.baseChunkSize * cfg.chunkCompressFactor
  let latentLen : ℤ := truncQ ((wavLenMax + (chunkSize : ℚ) - 1) / (chunkSize : ℚ))
  let latentDim : ℕ := cfg.latentDim * cfg.chunkCompressFactor
  let latentMask := getLatentMask wavLengths (cfg.baseChunkSize : ℤ) (cfg.chunkCompressFactor : ℤ)
  let noisy := (List.range bsz).map fun b =>
    (List.range latentDim).map fun d =>
      (List.range latentLen.toNat).map fun t =>
        noise b d t * (((latentMask.getD b []).getD 0 []).getD t 0)
  (noisy, latentMask)

/-! ### Text normalisation (`UnicodeProcessor::preprocessText`) -/

/-- A UTF-8 continuation-range byte, i.e. a byte in the regex class
    `[\x80-\xBF]`. -/
def isContB (b : ℕ) : Bool := 128 ≤ b && b ≤ 191

/-- The emoji-removal `std::regex_replace` with pattern
    `[\xF0\x9F][\x80-\xBF]{2}|[\xE2][\x80-\xBF]{2}|[\xE2][\x98-\x9E][\x80-\xBF]`.
    Each bracket without a dash is a two-byte character class, so every
    alternative matches exactly three bytes, and the third alternative is
    subsumed by the second; a match is deleted and scanning resumes after it. -/
def removeEmoji : ByteStr → ByteStr
  | b1 :: b2 :: b3 :: rest =>
      if (b1 == 240 || b1 == 159 || b1 == 226) && isContB b2 && isContB b3 then
        removeEmoji rest
      else b1 :: removeEmoji (b2 :: b3 :: rest)
  | s => s

/-- The diacritics-removal `std::regex_replace` with pattern
    `[\xCC\xCD][\x80-\xBF]` (two-byte matches). -/
def removeDiacritics : ByteStr → ByteStr
  | b1 :: b2 :: rest =>
      if (b1 == 204 || b1 == 205) && isContB b2 then removeDiacritics rest
      else b1 :: removeDiacritics (b2 :: rest)
  | s => s

/-- One left-to-right find/replace sweep: scanning the string, on a match of
    `fr` emit `to` and continue after the match (the emitted replacement is not
    rescanned).  This is the semantics both of the C++
    `while ((pos = result.find(from, pos)) != npos) { replace; pos += |to|; }`
    loops and of `std::regex_replace` with a literal pattern.  `k` counts
    match bytes still to be skipped. -/
def replaceScanGo (fr tgt : ByteStr) : ℕ → ByteStr → ByteStr
  | _, [] => []
  | k + 1, _ :: rest => replaceScanGo fr tgt k rest
  | 0, c :: rest =>
      if !fr.isEmpty && fr.isPrefixOf (c :: rest) then
        tgt ++ replaceScanGo fr tgt (fr.length - 1) rest
      else c :: replaceScanGo fr tgt 0 rest

def replaceScan (fr tgt s : ByteStr) : ByteStr := replaceScanGo fr tgt 0 s

/-- The dash/quote/bracket replacement table of `preprocessText`, in source
    order, as UTF-8 byte sequences. -/
def dashReplacements : List (ByteStr × ByteStr) :=
  [([226,128,147],[45]), ([226,128,145],[45]), ([226,128,148],[45]),
   ([194,175],[32]), ([95],[32]),
   ([226,128,156],[34]), ([226,128,157],[34]), ([226,128,152],[39]), ([226,128,153],[39]),
   ([194,180],[39]), ([96],[39]),
   ([91],[32]), ([93],[32]), ([124],[32]), ([47],[32]), ([35],[32]),
   ([226,134,146],[32]), ([226,134,144],[32])]

/-- The special symbols erased by `preprocessText`: heart, star, white heart,
    copyright sign, backslash. -/
def specialSymbols : List ByteStr :=
  [[226,153,165], [226,152,134], [226,153,161], [194,169], [92]]

/-- The expression replacements of `preprocessText`. -/
def exprReplacements : List (ByteStr × ByteStr) :=
  [([64], [32,97,116,32]),
   ([101,46,103,46,44], [102,111,114,32,101,120,97,109,112,108,101,44,32]),
   ([105,46,101,46,44], [116,104,97,116,32,105,115,44,32])]

/-- Replace the first occurrence of the byte pair `c c` by a single `c`
    (`none` when no occurrence exists). -/
def replaceFirstPair (c : ℕ) : ByteStr → Option ByteStr
  | b1 :: b2 :: rest =>
      if b1 == c && b2 == c then some (c :: rest)
      else (replaceFirstPair c (b2 :: rest)).map (b1 :: ·)
  | _ => none

/-- Iterate `replaceFirstPair` with explicit fuel. -/
def dedupGo (c : ℕ) : ℕ → ByteStr → ByteStr
  | 0, s => s
  | fuel + 1, s =>
      match replaceFirstPair c s with
      | none => s
      | some t => dedupGo c fuel t

/-- The C++ `while (result.find(cc) != npos) replace-first` loop.  Each
    successful replacement shortens the string by one byte, so `s.length`
    steps of fuel always reach the fixpoint. -/
def dedupPairs (c : ℕ) (s : ByteStr) : ByteStr := dedupGo c s.length s

/-- `std::regex_replace` with pattern `\s+` and replacement a single space:
    each maximal whitespace run becomes one space.  The flag records whether
    the scanner is inside a run already emitted. -/
def collapseWsGo : Bool → ByteStr → ByteStr
  | _, [] => []
  | inRun, b :: rest =>
      if isSpaceB b then
        (if inRun then collapseWsGo true rest else 32 :: collapseWsGo true rest)
      else b :: collapseWsGo false rest

def collapseWs (s : ByteStr) : ByteStr := collapseWsGo false s

/-- The single-byte terminal punctuation set of `preprocessText`. -/
def asciiTerminalPunct : List ℕ := [46, 33, 63, 59, 58, 44, 39, 34, 41, 93, 125, 62]

/-- The strings compared against the last three bytes (ellipsis, CJK stops and
    brackets, guillemets, curly quotes), as in the source; the two-byte
    guillemet can never equal a three-byte suffix, exactly as in the C++. -/
def multibyteTerminators : List ByteStr :=
  [[226,128,166], [227,128,130], [227,128,141], [227,128,143], [227,128,145],
   [227,128,137], [227,128,139], [226,128,186], [194,187],
   [226,128,156], [226,128,157], [226,128,152], [226,128,153]]

/-- The terminal-punctuation test at the end of `preprocessText`. -/
def endsWithPunct (s : ByteStr) : Bool :=
  if asciiTerminalPunct.contains (s.getLastD 0) then true
  else if 3 ≤ s.length then multibyteTerminators.contains (s.drop (s.length - 3))
  else false

/-- helper.cpp `UnicodeProcessor::preprocessText`, stage by stage in source
    order. -/
def preprocessText (text : ByteStr) : ByteStr :=
  let r := removeEmoji text
  let r := dashReplacements.foldl (fun s p => replaceScan p.1 p.2 s) r
  let r := removeDiacritics r
  let r := specialSymbols.foldl (fun s sym => replaceScan sym [] s) r
  let r := exprReplacements.foldl (fun s p => replaceScan p.1 p.2 s) r
  let r := replaceScan [32,44] [44] r
  let r := replaceScan [32,46] [46] r
  let r := replaceScan [32,33] [33] r
  let r := replaceScan [32,63] [63] r
  let r := replaceScan [32,59] [59] r
  let r := replaceScan [32,58] [58] r
  let r := replaceScan [32,39] [39] r
  let r := dedupPairs 34 r
  let r := dedupPairs 39 r
  let r := dedupPairs 96 r
  let r := collapseWs r
  let r := trim r
  if r = [] then r else if endsWithPunct r then r else r ++ [46]

/-- helper.cpp `UnicodeProcessor::textToUnicodeValues` iterates the bytes of
    the string and widens each to `uint16_t`; on the byte-string model this is
    the identity. -/
def textToUnicodeValues (text : ByteStr) : List ℕ := text

/-- helper.cpp `UnicodeProcessor::call`: normalise every text, pad the id rows
    with 0 to the batch maximum length, map each byte through the indexer when
    in range (leaving the initial 0 otherwise), and build the text mask. -/
def UnicodeProcessor.call (indexer : List ℤ) (textList : List ByteStr) :
    List (List ℤ) × Tensor3 :=
  let processed := textList.map preprocessText
  let textIdsLengths : List ℤ := processed.map fun t => (t.length : ℤ)
  let maxLen : ℤ := listMaxI textIdsLengths
  let textIds := processed.map fun t =>
    (List.range maxLen.toNat).map fun j =>
      if j < (textToUnicodeValues t).length then
        (if (textToUnicodeValues t).getD j 0 < indexer.length then
          indexer.getD ((textToUnicodeValues t).getD j 0) 0
        else 0)
      else 0
  (textIds, lengthToMask textIdsLengths)

/-! ### Text chunking (`chunkText`) -/

/-- Sentence-terminator bytes of the regex `[.!?]\s+`. -/
def isPunctB (b : ℕ) : Bool := b == 46 || b == 33 || b == 63

def headIsSpace : ByteStr → Bool
  | [] => false
  | b :: _ => isSpaceB b

/-- Index of the last newline byte in a string, if any. -/
def lastNlIdx : ByteStr → Option ℕ
  | [] => none
  | b :: rest =>
      match lastNlIdx rest with
      | some i => some (i + 1)
      | none => if b == 10 then some 0 else none

/-- Length of the leftmost match of the paragraph regex `\n\s*\n+` starting at
    the head of `s`, if any.  With backtracking-greedy semantics the match
    starts with a newline and extends to just past the last newline of the
    whitespace run that follows it; it exists iff that run holds a second
    newline. -/
def paraMatchLen (s : ByteStr) : Option ℕ :=
  match s with
  | 10 :: rest =>
      match lastNlIdx (rest.takeWhile isSpaceB) with
      | some i => some (i + 2)
      | none => none
  | _ => none

/-- Token scan of the paragraph split (`std::sregex_token_iterator` with
    submatch -1): pieces between matches, with `skip` counting match bytes
    still to be consumed and `cur` the reversed current piece. -/
def paraGo : ℕ → ByteStr → ByteStr → List ByteStr
  | _, cur, [] => [cur.reverse]
  | k + 1, cur, _ :: rest => paraGo k cur rest
  | 0, cur, c :: rest =>
      match paraMatchLen (c :: rest) with
      | some l => cur.reverse :: paraGo (l - 1) [] rest
      | none => paraGo 0 (c :: cur) rest

/-- Paragraphs of `chunkText`: split on `\n\s*\n+`, trim, drop empties. -/
def splitParagraphs (text : ByteStr) : List ByteStr :=
  ((paraGo 0 [] text).map trim).filter (fun p => !p.isEmpty)

/-- Token scan of the sentence split on `[.!?]\s+` inside one paragraph.  The
    result pairs each piece with the delimiter match that follows it (empty
    for the final piece), mirroring the C++ loop that re-appends
    `match.str()` found by `regex_search` from the token start.  In the state,
    `none` means scanning a piece accumulated in `cur`, and `some (p, dAcc)`
    means the piece `p` is complete and the reversed delimiter bytes are
    accumulating in `dAcc`. -/
def sentGo : Option (ByteStr × ByteStr) → ByteStr → ByteStr → List (ByteStr × ByteStr)
  | none, cur, [] => [(cur, [])]
  | some pd, _, [] => [(pd.1, pd.2.reverse), ([], [])]
  | none, cur, c :: rest =>
      if isPunctB c && headIsSpace rest then sentGo (some (cur, [c])) [] rest
      else sentGo none (cur ++ [c]) rest
  | some pd, _, c :: rest =>
      if isSpaceB c then sentGo (some (pd.1, c :: pd.2)) [] rest
      else
        (pd.1, pd.2.reverse) ::
          (if isPunctB c && headIsSpace rest then sentGo (some ([], [c])) [] rest
           else sentGo none [c] rest)

/-- Sentences of one paragraph: empty tokens are skipped (their delimiter with
    them), and each kept token carries its trailing delimiter match. -/
def splitSentences (para : ByteStr) : List ByteStr :=
  (sentGo none [] para).filterMap fun pr => if pr.1.isEmpty then none else some (pr.1 ++ pr.2)

/-- The greedy sentence-packing loop of `chunkText`: keep appending sentences
    while `len(chunk) + len(sentence) + 1 <= maxLen`, otherwise flush the
    trimmed current chunk and restart from the overflowing sentence; flush the
    trimmed remainder at the end. -/
def packGo (maxLen : ℤ) : ByteStr → List ByteStr → List ByteStr
  | cur, [] => if cur = [] then [] else [trim cur]
  | cur, s :: rest =>
      if ((cur.length : ℤ) + (s.length : ℤ) + 1) ≤ maxLen then
        packGo maxLen (if cur = [] then s else cur ++ 32 :: s) rest
      else if cur = [] then packGo maxLen s rest
      else trim cur :: packGo maxLen s rest

/-- helper.cpp `chunkText`: paragraphs, then sentences, then greedy packing,
    with the trimmed original text as fallback when no chunk was produced. -/
def chunkText (text : ByteStr) (maxLen : ℤ) : List ByteStr :=
  let chunks := (splitParagraphs text).foldl
    (fun acc para => acc ++ packGo maxLen [] (splitSentences para)) []
  if chunks = [] then [trim text] else chunks

/-! ### TextToSpeech -/

/-- helper.cpp `Style`: the two style tensors with their shapes. -/
structure Style where
  ttlData : List ℚ
  ttlShape : List ℤ
  dpData : List ℚ
  dpShape : List ℤ

/-- The full input tuple of one latent-denoiser (`vector_est`) invocation. -/
structure EstCall where
  noisy : Tensor3
  emb : List ℚ
  sty : List ℚ × List ℤ
  tmask : Tensor3
  lmask : Tensor3
  tstep : List ℚ
  cstep : List ℚ

def EstCall.dflt : EstCall := ⟨[], [], ([], []), [], [], [], []⟩

/-- One recorded ONNX `Run` invocation. -/
inductive ModelCall where
  | dp : ModelCall
  | enc : ModelCall
  | est : EstCall → ModelCall
  | voc : ModelCall

/-- The four external model sessions plus the injected RNG. -/
structure Env where
  dpRun : List (List ℤ) → List ℚ × List ℤ → Tensor3 → List ℚ
  encRun : List (List ℤ) → List ℚ × List ℤ → Tensor3 → List ℚ
  estRun : Tensor3 → List ℚ → List ℚ × List ℤ → Tensor3 → Tensor3 → List ℚ → List ℚ → Tensor3
  vocRun : Tensor3 → List ℚ
  noise : ℕ → ℕ → ℕ → ℚ

/-- One iteration of the denoising loop of `TextToSpeech::_infer`: build the
    per-item `current_step` vector, invoke the denoiser, record the call, and
    replace the working latent with the output. -/
def denoiseStep (env : Env) (emb : List ℚ) (sty : List ℚ × List ℤ) (tm lm : Tensor3)
    (ts : List ℚ) (bsz : ℕ) (p : Tensor3 × List ModelCall) (step : ℕ) :
    Tensor3 × List ModelCall :=
  let cVec : List ℚ := List.replicate bsz ((step : ℚ))
  (env.estRun p.1 emb sty tm lm ts cVec,
   p.2 ++ [ModelCall.est ⟨p.1, emb, sty, tm, lm, ts, cVec⟩])

/-- The body of `TextToSpeech::_infer` after the batch/style check: text
    processing, duration prediction (first `bsz` outputs, divided by `speed`),
    text encoding, latent scaffolding, the denoising loop, and vocoding.
    Returns `((wav, duration), trace)`. -/
def inferCore (env : Env) (indexer : List ℤ) (cfg : Config) (textList : List ByteStr)
    (style : Style) (totalStep : ℕ) (speed : ℚ) :
    (List ℚ × List ℚ) × List ModelCall :=
  let bsz := textList.length
  let tc := UnicodeProcessor.call indexer textList
  let duration0 := (env.dpRun tc.1 (style.dpData, style.dpShape) tc.2).take bsz
  let duration := duration0.map fun d => d / speed
  let textEmb := env.encRun tc.1 (style.ttlData, style.ttlShape) tc.2
  let snl := sampleNoisyLatent env.noise cfg duration
  let tstepVec : List ℚ := List.replicate bsz ((totalStep : ℚ))
  let looped := (List.range totalStep).foldl
    (denoiseStep env textEmb (style.ttlData, style.ttlShape) tc.2 snl.2 tstepVec bsz)
    (snl.1, [])
  let wav := env.vocRun looped.1
  ((wav, duration), ModelCall.dp :: ModelCall.enc :: looped.2 ++ [ModelCall.voc])

/-- helper.cpp `TextToSpeech::_infer`: the batch/style consistency check in
    front of `inferCore`; a mismatch throws before any model call, so the
    trace is empty. -/
def TextToSpeech.infer (env : Env) (indexer : List ℤ) (cfg : Config)
    (textList : List ByteStr) (style : Style) (totalStep : ℕ) (speed : ℚ) :
    Except String (List ℚ × List ℚ) × List ModelCall :=
  if (textList.length : ℤ) ≠ style.ttlShape.headD 0 then
    (Except.error "Number of texts must match number of style vectors", [])
  else
    let r := inferCore env indexer cfg textList style totalStep speed
    (Except.ok r.1, r.2)

/-- helper.cpp `TextToSpeech::batch` forwards to `_infer`. -/
def TextToSpeech.batch (env : Env) (indexer : List ℤ) (cfg : Config)
    (textList : List ByteStr) (style : Style) (totalStep : ℕ) (speed : ℚ) :
    Except String (List ℚ × List ℚ) × List ModelCall :=
  TextToSpeech.infer env indexer cfg textList style totalStep speed

/-- The waveform produced for a single chunk by `_infer`. -/
def chunkWav (env : Env) (indexer : List ℤ) (cfg : Config) (style : Style)
    (totalStep : ℕ) (speed : ℚ) (c : ByteStr) : List ℚ :=
  (inferCore env indexer cfg [c] style totalStep speed).1.1

/-- The duration (`result.duration[0]`) produced for a single chunk. -/
def chunkDur (env : Env) (indexer : List ℤ) (cfg : Config) (style : Style)
    (totalStep : ℕ) (speed : ℚ) (c : ByteStr) : ℚ :=
  (inferCore env indexer cfg [c] style totalStep speed).1.2.headD 0

/-- One step of the chunk loop in `TextToSpeech::call`: on the first chunk
    (empty accumulated waveform) take the result as-is, otherwise append
    `int(silence * sampleRate)` zero samples and the chunk waveform, and add
    `duration[0] + silence` to the accumulated duration. -/
def callStep (env : Env) (indexer : List ℤ) (cfg : Config) (style : Style)
    (totalStep : ℕ) (speed silenceDuration : ℚ)
    (acc : Except String (List ℚ × ℚ)) (c : ByteStr) : Except String (List ℚ × ℚ) :=
  match acc with
  | Except.error e => Except.error e
  | Except.ok wd =>
    match (TextToSpeech.infer env indexer cfg [c] style totalStep speed).1 with
    | Except.error e => Except.error e
    | Except.ok r =>
      if wd.1 = [] then Except.ok (r.1, r.2.headD 0)
      else
        Except.ok
          (wd.1 ++ List.replicate (truncQ (silenceDuration * (cfg.sampleRate : ℚ))).toNat 0 ++ r.1,
           wd.2 + r.2.headD 0 + silenceDuration)

/-- helper.cpp `TextToSpeech::call` (long-form mode): require a single style,
    chunk the text, synthesise each chunk, and stitch waveforms and durations
    with inter-chunk silence. -/
def TextToSpeech.call (env : Env) (indexer : List ℤ) (cfg : Config) (text : ByteStr)
    (style : Style) (totalStep : ℕ) (speed silenceDuration : ℚ) (maxLen : ℤ) :
    Except String (List ℚ × List ℚ) :=
  if style.ttlShape.headD 0 ≠ 1 then
    Except.error "Single speaker text to speech only supports single style"
  else
    match (chunkText text maxLen).foldl
        (callStep env indexer cfg style totalStep speed silenceDuration)
        (Except.ok ([], 0)) with
    | Except.error e => Except.error e
    | Except.ok wd => Except.ok (wd.1, [wd.2])

/-- The denoiser invocations recorded in a trace, in order. -/
def estCalls (tr : List ModelCall) : List EstCall :=
  tr.filterMap fun c =>
    match c with
    | ModelCall.est e => some e
    | _ => none

/-- Modelled from the spec: "the returned waveform is the concatenation of the
    k chunk waveforms with ... zero-valued samples inserted between
    consecutive chunks" — the claim-side stitching, for comparison with
    `TextToSpeech.call`. -/
def specConcatWithSilence (silenceBlock : List ℚ) : List (List ℚ) → List ℚ
  | [] => []
  | [w] => w
  | w :: ws => w ++ silenceBlock ++ specConcatWithSilence silenceBlock ws

/-- The working latent after `n` denoising iterations (proof-side
    characterisation of the loop state). -/
def denoiseIter (env : Env) (emb : List ℚ) (sty : List ℚ × List ℤ) (tm lm : Tensor3)
    (ts : List ℚ) (bsz : ℕ) (x0 : Tensor3) : ℕ → Tensor3
  | 0 => x0
  | k + 1 =>
      env.estRun (denoiseIter env emb sty tm lm ts bsz x0 k) emb sty tm lm ts
        (List.replicate bsz ((k : ℚ)))

/-- The text embedding computed by `_infer` (proof-side abbreviation). -/
def inferEmb (env : Env) (indexer : List ℤ) (textList : List ByteStr) (style : Style) :
    List ℚ :=
  env.encRun (UnicodeProcessor.call indexer textList).1 (style.ttlData, style.ttlShape)
    (UnicodeProcessor.call indexer textList).2

/-- The speed-adjusted duration vector computed by `_infer` (proof-side). -/
def inferDuration (env : Env) (indexer : List ℤ) (textList : List ByteStr) (style : Style)
    (speed : ℚ) : List ℚ :=
  ((env.dpRun (UnicodeProcessor.call indexer textList).1 (style.dpData, style.dpShape)
      (UnicodeProcessor.call indexer textList).2).take textList.length).map fun d => d / speed

/-- The initial noisy latent of `_infer` (proof-side). -/
def inferX0 (env : Env) (indexer : List ℤ) (cfg : Config) (textList : List ByteStr)
    (style : Style) (speed : ℚ) : Tensor3 :=
  (sampleNoisyLatent env.noise cfg (inferDuration env indexer textList style speed)).1

/-- The latent mask of `_infer` (proof-side). -/
def inferLM (env : Env) (indexer : List ℤ) (cfg : Config) (textList : List ByteStr)
    (style : Style) (speed : ℚ) : Tensor3 :=
  (sampleNoisyLatent env.noise cfg (inferDuration env indexer textList style speed)).2

/-- The full input tuple of the step-`k` denoiser invocation inside `_infer`
    (proof-side). -/
def estCallAt (env : Env) (indexer : List ℤ) (cfg : Config) (textList : List ByteStr)
    (style : Style) (totalStep : ℕ) (speed : ℚ) (k : ℕ) : EstCall :=
  ⟨denoiseIter env (inferEmb env indexer textList style) (style.ttlData, style.ttlShape)
      (UnicodeProcessor.call indexer textList).2 (inferLM env indexer cfg textList style speed)
      (List.replicate textList.length ((totalStep : ℚ))) textList.length
      (inferX0 env indexer cfg textList style speed) k,
   inferEmb env indexer textList style,
   (style.ttlData, style.ttlShape),
   (UnicodeProcessor.call indexer textList).2,
   inferLM env indexer cfg textList style speed,
   List.replicate textList.length ((totalStep : ℚ)),
   List.replicate textList.length ((k : ℚ))⟩

/-- A piece of a string is `pieceOK` when it is empty or starts with a
    non-whitespace byte (proof-side invariant of the sentence scanner). -/
def pieceOK (p : ByteStr) : Prop := p ≠ [] → isSpaceB (p.headD 0) = false

/-- A string containing at least one non-whitespace byte. -/
def hasInk (s : ByteStr) : Prop := ∃ b ∈ s, isSpaceB b = false

/-- A concrete environment for witnesses: constant duration 1, identity
    denoiser, one-sample vocoder output, zero noise. -/
def envSimple : Env where
  dpRun := fun _ _ _ => [1]
  encRun := fun _ _ _ => [0]
  estRun := fun nl _ _ _ _ _ _ => nl
  vocRun := fun _ => [7]
  noise := fun _ _ _ => 0

/-- A concrete environment whose vocoder returns an empty waveform. -/
def envEmptyWav : Env where
  dpRun := fun _ _ _ => [1]
  encRun := fun _ _ _ => [0]
  estRun := fun nl _ _ _ _ _ _ => nl
  vocRun := fun _ => []
  noise := fun _ _ _ => 0

/-- A small concrete configuration for witnesses. -/
def cfgSimple : Config := ⟨2, 1, 1, 1⟩

/-- A single-item style (batch dimension 1). -/
def styleSingle : Style := ⟨[1], [1, 1, 1], [2], [1, 1, 1]⟩

/-! ## General helper lemmas -/

lemma getD_map_of_lt {α β : Type} (f : α → β) (l : List α) (i : ℕ) (dα : α) (dβ : β)
    (h : i < l.length) : (l.map f).getD i dβ = f (l.getD i dα) := by
  rw [List.getD_eq_getElem?_getD, List.getElem?_map, List.getElem?_eq_getElem h,
    List.getD_eq_getElem?_getD, List.getElem?_eq_getElem h]
  rfl

lemma getD_range_map {α : Type} (f : ℕ → α) (n i : ℕ) (d : α) (h : i < n) :
    ((List.range n).map f).getD i d = f i := by
  have hlen : i < (List.range n).length := by simpa using h
  rw [getD_map_of_lt f _ i 0 d hlen]
  congr 1
  rw [List.getD_eq_getElem?_getD, List.getElem?_range h]
  rfl

lemma le_foldl_max {α : Type} [LinearOrder α] (l : List α) (a : α) : a ≤ l.foldl max a := by
  induction l generalizing a with
  | nil => exact le_refl a
  | cons x xs ih => exact le_trans (le_max_left a x) (ih (max a x))

lemma mem_le_foldl_max {α : Type} [LinearOrder α] (l : List α) (a y : α) (hy : y ∈ l) :
    y ≤ l.foldl max a := by
  induction l generalizing a with
  | nil => cases hy
  | cons x xs ih =>
      rcases List.mem_cons.mp hy with h | h
      · subst h
        exact le_trans (le_max_right a y) (le_foldl_max xs (max a y))
      · exact ih (max a x) h

lemma foldl_max_mem {α : Type} [LinearOrder α] (l : List α) (a : α) :
    l.foldl max a = a ∨ l.foldl max a ∈ l := by
  induction l generalizing a with
  | nil => exact Or.inl rfl
  | cons x xs ih =>
      rcases ih (max a x) with h | h
      · rw [List.foldl_cons]
        rcases max_choice a x with he | he
        · rw [h, he]
          exact Or.inl rfl
        · rw [h, he]
          exact Or.inr (List.mem_cons_self x xs)
      · exact Or.inr (List.mem_cons_of_mem x h)

lemma listMaxI_spec (l : List ℤ) (h : l ≠ []) : listMaxI l ∈ l ∧ ∀ y ∈ l, y ≤ listMaxI l := by
  cases l with
  | nil => exact absurd rfl h
  | cons x xs =>
      refine ⟨?_, ?_⟩
      · rcases foldl_max_mem xs x with h1 | h1
        · rw [listMaxI, h1]
          exact List.mem_cons_self x xs
        · exact List.mem_cons_of_mem x h1
      · intro y hy
        rcases List.mem_cons.mp hy with h1 | h1
        · subst h1
          exact le_foldl_max xs y
        · exact mem_le_foldl_max xs x y h1

lemma listMaxQ_spec (l : List ℚ) (h : l ≠ []) : listMaxQ l ∈ l ∧ ∀ y ∈ l, y ≤ listMaxQ l := by
  cases l with
  | nil => exact absurd rfl h
  | cons x xs =>
      refine ⟨?_, ?_⟩
      · rcases foldl_max_mem xs x with h1 | h1
        · rw [listMaxQ, h1]
          exact List.mem_cons_self x xs
        · exact List.mem_cons_of_mem x h1
      · intro y hy
        rcases List.mem_cons.mp hy with h1 | h1
        · subst h1
          exact le_foldl_max xs y
        · exact mem_le_foldl_max xs x y h1

/-! ## C5: lengthToMask -/

/-- C5: for every non-empty list of (non-negative) lengths `L`,
    `lengthToMask L` with the defaulted `maxLen` is a `[len L][1][max L]`
    tensor whose entry `[i][0][j]` is `1.0` iff `j < L[i]` and `0.0`
    otherwise, and whose width is `max L`. -/
theorem c5_length_to_mask (L : List ℤ) (hne : L ≠ []) (hnn : ∀ x ∈ L, 0 ≤ x) :
    (lengthToMask L).length = L.length ∧
    ∀ i, i < L.length →
      ((lengthToMask L).getD i []).length = 1 ∧
      (((lengthToMask L).getD i []).getD 0 []).length = (listMaxI L).toNat ∧
      ∀ j, j < (listMaxI L).toNat →
        (((lengthToMask L).getD i []).getD 0 []).getD j 0
          = if (j : ℤ) < L.getD i 0 then 1 else 0 := by
  have hmask : lengthToMask L
      = L.map (fun len => [(List.range (listMaxI L).toNat).map
          fun (j : ℕ) => if (j : ℤ) < len then (1 : ℚ) else 0]) := rfl
  constructor
  · rw [hmask, List.length_map]
  · intro i hi
    rw [hmask, getD_map_of_lt _ L i 0 [] hi]
    refine ⟨rfl, ?_, ?_⟩
    · show ((List.range (listMaxI L).toNat).map
          fun (j : ℕ) => if (j : ℤ) < L.getD i 0 then (1 : ℚ) else 0).length = _
      rw [List.length_map, List.length_range]
    · intro j hj
      show ((List.range (listMaxI L).toNat).map
          fun (j : ℕ) => if (j : ℤ) < L.getD i 0 then (1 : ℚ) else 0).getD j 0 = _
      rw [getD_range_map _ _ j 0 hj]

/-- Witness for C5 at `L = [2, 4]` (the spec scenario). -/
theorem c5_witness :
    (([2, 4] : List ℤ) ≠ [] ∧ ∀ x ∈ ([2, 4] : List ℤ), 0 ≤ x) ∧
    ((lengthToMask [2, 4]).length = ([2, 4] : List ℤ).length ∧
      ∀ i, i < ([2, 4] : List ℤ).length →
        ((lengthToMask [2, 4]).getD i []).length = 1 ∧
        (((lengthToMask [2, 4]).getD i []).getD 0 []).length = (listMaxI [2, 4]).toNat ∧
        ∀ j, j < (listMaxI [2, 4]).toNat →
          (((lengthToMask [2, 4]).getD i []).getD 0 []).getD j 0
            = if (j : ℤ) < ([2, 4] : List ℤ).getD i 0 then 1 else 0) :=
  ⟨⟨by decide, by decide⟩, c5_length_to_mask [2, 4] (by decide) (by decide)⟩

/-! ## C2: batch/style mismatch -/

/-- C2: when the number of texts differs from the style batch dimension, the
    batch entry point returns the input-mismatch error with an empty model
    trace — no model was invoked and no output was produced. -/
theorem c2_batch_mismatch (env : Env) (indexer : List ℤ) (cfg : Config)
    (textList : List ByteStr) (style : Style) (totalStep : ℕ) (speed : ℚ)
    (h : (textList.length : ℤ) ≠ style.ttlShape.headD 0) :
    TextToSpeech.batch env indexer cfg textList style totalStep speed =
      (Except.error "Number of texts must match number of style vectors",
       ([] : List ModelCall)) := by
  unfold TextToSpeech.batch TextToSpeech.infer
  rw [if_pos h]

/-- Witness for C2: two texts against a batch-1 style. -/
theorem c2_witness :
    ((([[97], [98]] : List ByteStr).length : ℤ) ≠ styleSingle.ttlShape.headD 0) ∧
    TextToSpeech.batch envSimple [5] cfgSimple [[97], [98]] styleSingle 5 1 =
      (Except.error "Number of texts must match number of style vectors",
       ([] : List ModelCall)) :=
  ⟨by decide, c2_batch_mismatch envSimple [5] cfgSimple [[97], [98]] styleSingle 5 1 (by decide)⟩

/-! ## C7: greedy chunk packing -/

/-- C7: the packing loop is exactly the stated greedy recurrence (append a
    sentence while `len(chunk) + len(sentence) + 1 <= maxLen`, flush on
    overflow and restart from the overflowing sentence), and on the concrete
    input the two sentences of `"A. B."` with `maxLen = 1` each become their
    own chunk: `["A.", "B."]`. -/
theorem c7_greedy_packing :
    chunkText [65, 46, 32, 66, 46] 1 = [[65, 46], [66, 46]] ∧
    (∀ (m : ℤ) (cur s : ByteStr) (rest : List ByteStr),
      packGo m cur (s :: rest) =
        if ((cur.length : ℤ) + (s.length : ℤ) + 1) ≤ m then
          packGo m (if cur = [] then s else cur ++ 32 :: s) rest
        else if cur = [] then packGo m s rest
        else trim cur :: packGo m s rest) ∧
    (∀ (m : ℤ) (cur : ByteStr), packGo m cur [] = if cur = [] then [] else [trim cur]) :=
  ⟨by decide, fun _ _ _ _ => rfl, fun _ _ => rfl⟩

/-! ## C8: normalisation is not idempotent (code bug) -/

/-- C8: the claim says `preprocessText` is idempotent, but the single-pass
    space-before-punctuation fix leaves a residual stray space when the input
    has two spaces before a comma: one application of the normaliser maps
    `"x  ,"` to `"x ,"`, a second application maps it further to `"x,"`. -/
theorem c8_normalize_not_idempotent :
    preprocessText [120, 32, 32, 44] = [120, 32, 44] ∧
    preprocessText (preprocessText [120, 32, 32, 44]) = [120, 44] ∧
    preprocessText (preprocessText [120, 32, 32, 44]) ≠ preprocessText [120, 32, 32, 44] :=
  ⟨by decide, by decide, by decide⟩

/-! ## C4: byte indexing with 0 as out-of-vocabulary value -/

/-- C4 (amended): the text-to-ids mapping emits one id per byte of the UTF-8
    encoding of the normalised text; a byte below the table length maps to its
    table entry and any other byte is left at the padding value `0` (not
    `-1`); rows are right-padded with `0` to the batch maximum length, and
    the operation is total. -/
theorem c4_byte_indexing (indexer : List ℤ) (textList : List ByteStr) (i : ℕ)
    (hi : i < textList.length) :
    ((UnicodeProcessor.call indexer textList).1.getD i []).length
        = (listMaxI ((textList.map preprocessText).map fun t => (t.length : ℤ))).toNat ∧
    ∀ j, j < (listMaxI ((textList.map preprocessText).map fun t => (t.length : ℤ))).toNat →
      ((UnicodeProcessor.call indexer textList).1.getD i []).getD j 0 =
        if j < (preprocessText (textList.getD i [])).length then
          (if (preprocessText (textList.getD i [])).getD j 0 < indexer.length then
            indexer.getD ((preprocessText (textList.getD i [])).getD j 0) 0
          else 0)
        else 0 := by
  have hproc : i < (textList.map preprocessText).length := by simpa using hi
  have hids : (UnicodeProcessor.call indexer textList).1
      = (textList.map preprocessText).map fun t =>
          (List.range (listMaxI ((textList.map preprocessText).map
              fun t => (t.length : ℤ))).toNat).map fun j =>
            if j < t.length then
              (if t.getD j 0 < indexer.length then indexer.getD (t.getD j 0) 0 else 0)
            else 0 := by
    unfold UnicodeProcessor.call textToUnicodeValues
    rfl
  have hrow : (UnicodeProcessor.call indexer textList).1.getD i []
      = (List.range (listMaxI ((textList.map preprocessText).map
            fun t => (t.length : ℤ))).toNat).map fun j =>
          if j < (preprocessText (textList.getD i [])).length then
            (if (preprocessText (textList.getD i [])).getD j 0 < indexer.length then
              indexer.getD ((preprocessText (textList.getD i [])).getD j 0) 0
            else 0)
          else 0 := by
    rw [hids, getD_map_of_lt _ _ i [] [] hproc, getD_map_of_lt preprocessText textList i [] [] hi]
  constructor
  · rw [hrow]
    simp
  · intro j hj
    rw [hrow, getD_range_map _ _ j 0 hj]

/-- Counterexample for C4 as stated: with a one-entry table, the text `"a"`
    normalises to `"a."`, both bytes are out of vocabulary, and the emitted
    ids are `[0, 0]` — not the claimed sentinel `-1`. -/
theorem c4_counterexample :
    (UnicodeProcessor.call [5] [[97]]).1 = [[0, 0]] ∧
    (UnicodeProcessor.call [5] [[97]]).1 ≠ [[-1, -1]] :=
  ⟨by decide, by decide⟩

/-- Witness for C4 (amended) at the counterexample input. -/
theorem c4_witness :
    (0 < ([[97]] : List ByteStr).length) ∧
    (((UnicodeProcessor.call [5] [[97]]).1.getD 0 []).length
        = (listMaxI ((([[97]] : List ByteStr).map preprocessText).map
            fun t => (t.length : ℤ))).toNat ∧
      ∀ j, j < (listMaxI ((([[97]] : List ByteStr).map preprocessText).map
            fun t => (t.length : ℤ))).toNat →
        ((UnicodeProcessor.call [5] [[97]]).1.getD 0 []).getD j 0 =
          if j < (preprocessText (([[97]] : List ByteStr).getD 0 [])).length then
            (if (preprocessText (([[97]] : List ByteStr).getD 0 [])).getD j 0
                < ([5] : List ℤ).length then
              ([5] : List ℤ).getD
                ((preprocessText (([[97]] : List ByteStr).getD 0 [])).getD j 0) 0
            else 0)
          else 0) :=
  ⟨by decide, c4_byte_indexing [5] [[97]] 0 (by decide)⟩

/-! ## C6 counterexample -/

/-- Counterexample for C6 as stated: on the empty (or whitespace-only) input
    the fallback branch returns the single chunk `trim ""` — an empty chunk. -/
theorem c6_counterexample :
    chunkText [] 300 = [[]] ∧ ([] : ByteStr) ∈ chunkText [] 300 :=
  ⟨by decide, by decide⟩

/-! ## C1: the denoising loop -/

lemma denoiseLoop_spec (env : Env) (emb : List ℚ) (sty : List ℚ × List ℤ) (tm lm : Tensor3)
    (ts : List ℚ) (bsz : ℕ) (x0 : Tensor3) (n : ℕ) :
    (List.range n).foldl (denoiseStep env emb sty tm lm ts bsz) (x0, []) =
      (denoiseIter env emb sty tm lm ts bsz x0 n,
       (List.range n).map fun k =>
         ModelCall.est ⟨denoiseIter env emb sty tm lm ts bsz x0 k, emb, sty, tm, lm, ts,
           List.replicate bsz ((k : ℚ))⟩) := by
  induction n with
  | zero => rfl
  | succ n ih =>
      rw [List.range_succ, List.foldl_append, List.map_append, ih]
      rfl

lemma estCalls_core {α : Type} (g : α → EstCall) (l : List α) :
    estCalls ((ModelCall.dp :: ModelCall.enc :: l.map fun k => ModelCall.est (g k))
        ++ [ModelCall.voc]) = l.map g := by
  show estCalls ((l.map fun k => ModelCall.est (g k)) ++ [ModelCall.voc]) = l.map g
  induction l with
  | nil => rfl
  | cons x xs ih =>
      show (g x) :: estCalls ((xs.map fun k => ModelCall.est (g k)) ++ [ModelCall.voc])
          = (x :: xs).map g
      rw [ih, List.map_cons]

/-- The model-call trace of a well-formed `_infer` call. -/
lemma infer_estCalls (env : Env) (indexer : List ℤ) (cfg : Config) (textList : List ByteStr)
    (style : Style) (totalStep : ℕ) (speed : ℚ)
    (hshape : (textList.length : ℤ) = style.ttlShape.headD 0) :
    estCalls (TextToSpeech.infer env indexer cfg textList style totalStep speed).2 =
      (List.range totalStep).map (estCallAt env indexer cfg textList style totalStep speed) := by
  have hne : ¬((textList.length : ℤ) ≠ style.ttlShape.headD 0) := fun hc => hc hshape
  have htr : (TextToSpeech.infer env indexer cfg textList style totalStep speed).2
      = (inferCore env indexer cfg textList style totalStep speed).2 := by
    unfold TextToSpeech.infer
    rw [if_neg hne]
  have hcore : (inferCore env indexer cfg textList style totalStep speed).2
      = ModelCall.dp :: ModelCall.enc ::
          ((List.range totalStep).foldl
            (denoiseStep env (inferEmb env indexer textList style)
              (style.ttlData, style.ttlShape) (UnicodeProcessor.call indexer textList).2
              (inferLM env indexer cfg textList style speed)
              (List.replicate textList.length ((totalStep : ℚ))) textList.length)
            (inferX0 env indexer cfg textList style speed, [])).2 ++ [ModelCall.voc] := rfl
  rw [htr, hcore, denoiseLoop_spec]
  exact estCalls_core (estCallAt env indexer cfg textList style totalStep speed)
    (List.range totalStep)

/-- C1: for every well-formed inference call with `totalStep >= 1`, the
    latent denoiser is invoked exactly `totalStep` times; the `current_step`
    vector of the `i`-th invocation is the per-item constant `i` for
    `i = 0, 1, ..., totalStep - 1` in ascending order; and the working latent
    passed to invocation `i + 1` is exactly the denoiser output
    (`denoised_latent`) of invocation `i` — the latent is replaced wholesale
    each step. -/
theorem c1_denoising_schedule (env : Env) (indexer : List ℤ) (cfg : Config)
    (textList : List ByteStr) (style : Style) (totalStep : ℕ) (speed : ℚ)
    (hbsz : 0 < textList.length)
    (hshape : (textList.length : ℤ) = style.ttlShape.headD 0)
    (hstep : 1 ≤ totalStep) :
    (estCalls (TextToSpeech.infer env indexer cfg textList style totalStep speed).2).length
        = totalStep ∧
    (∀ i, i < totalStep →
      ((estCalls (TextToSpeech.infer env indexer cfg textList style totalStep speed).2).getD i
          EstCall.dflt).cstep = List.replicate textList.length ((i : ℚ))) ∧
    (∀ i, i + 1 < totalStep →
      ((estCalls (TextToSpeech.infer env indexer cfg textList style totalStep speed).2).getD (i + 1)
          EstCall.dflt).noisy =
        env.estRun
          ((estCalls (TextToSpeech.infer env indexer cfg textList style totalStep speed).2).getD i
            EstCall.dflt).noisy
          ((estCalls (TextToSpeech.infer env indexer cfg textList style totalStep speed).2).getD i
            EstCall.dflt).emb
          ((estCalls (TextToSpeech.infer env indexer cfg textList style totalStep speed).2).getD i
            EstCall.dflt).sty
          ((estCalls (TextToSpeech.infer env indexer cfg textList style totalStep speed).2).getD i
            EstCall.dflt).tmask
          ((estCalls (TextToSpeech.infer env indexer cfg textList style totalStep speed).2).getD i
            EstCall.dflt).lmask
          ((estCalls (TextToSpeech.infer env indexer cfg textList style totalStep speed).2).getD i
            EstCall.dflt).tstep
          ((estCalls (TextToSpeech.infer env indexer cfg textList style totalStep speed).2).getD i
            EstCall.dflt).cstep) := by
  rw [infer_estCalls env indexer cfg textList style totalStep speed hshape]
  refine ⟨by rw [List.length_map, List.length_range], ?_, ?_⟩
  · intro i hi
    rw [getD_range_map _ _ i EstCall.dflt hi]
    rfl
  · intro i hi
    rw [getD_range_map _ _ (i + 1) EstCall.dflt hi,
      getD_range_map _ _ i EstCall.dflt (Nat.lt_of_succ_lt hi)]
    rfl

/-- Witness for C1: a concrete two-step call on a single text. -/
theorem c1_witness :
    (0 < ([[97]] : List ByteStr).length ∧
      ((([[97]] : List ByteStr).length : ℤ) = styleSingle.ttlShape.headD 0) ∧ 1 ≤ 2) ∧
    (estCalls (TextToSpeech.infer envSimple [5] cfgSimple [[97]] styleSingle 2 1).2).length = 2 :=
  ⟨⟨by decide, by decide, by decide⟩,
    (c1_denoising_schedule envSimple [5] cfgSimple [[97]] styleSingle 2 1 (by decide) (by decide)
      (by decide)).1⟩

/-! ## C10 and C3: the long-form chunk loop -/

lemma chunkText_ne_nil (text : ByteStr) (maxLen : ℤ) : chunkText text maxLen ≠ [] := by
  unfold chunkText
  by_cases h : (splitParagraphs text).foldl
      (fun acc para => acc ++ packGo maxLen [] (splitSentences para)) [] = []
  · rw [if_pos h]
    exact List.cons_ne_nil _ _
  · rw [if_neg h]
    exact h

/-- A `callStep` on an already-ok accumulator under a matching single style. -/
lemma callStep_ok (env : Env) (indexer : List ℤ) (cfg : Config) (style : Style)
    (totalStep : ℕ) (speed silenceDuration : ℚ)
    (hshape : style.ttlShape.headD 0 = 1) (wd : List ℚ × ℚ) (c : ByteStr) :
    callStep env indexer cfg style totalStep speed silenceDuration (Except.ok wd) c =
      if wd.1 = [] then
        Except.ok (chunkWav env indexer cfg style totalStep speed c,
                   chunkDur env indexer cfg style totalStep speed c)
      else
        Except.ok
          (wd.1 ++ List.replicate (truncQ (silenceDuration * (cfg.sampleRate : ℚ))).toNat 0
              ++ chunkWav env indexer cfg style totalStep speed c,
           wd.2 + chunkDur env indexer cfg style totalStep speed c + silenceDuration) := by
  have hne : ¬((([c] : List ByteStr).length : ℤ) ≠ style.ttlShape.headD 0) := by
    rw [hshape]
    exact fun hc => hc rfl
  unfold callStep TextToSpeech.infer
  rw [if_neg hne]
  rfl

/-- The chunk fold of `TextToSpeech::call`, once the accumulated waveform is
    non-empty: every later chunk goes through the silence-inserting branch. -/
lemma call_fold (env : Env) (indexer : List ℤ) (cfg : Config) (style : Style)
    (totalStep : ℕ) (speed silenceDuration : ℚ)
    (hshape : style.ttlShape.headD 0 = 1) :
    ∀ (cs : List ByteStr) (w : List ℚ) (d : ℚ), w ≠ [] →
      cs.foldl (callStep env indexer cfg style totalStep speed silenceDuration)
          (Except.ok (w, d)) =
        Except.ok
          (w ++ (cs.map fun c =>
              List.replicate (truncQ (silenceDuration * (cfg.sampleRate : ℚ))).toNat 0
                ++ chunkWav env indexer cfg style totalStep speed c).join,
           d + (cs.map (chunkDur env indexer cfg style totalStep speed)).sum
             + (cs.length : ℚ) * silenceDuration) := by
  intro cs
  induction cs with
  | nil =>
      intro w d hw
      simp
  | cons c rest ih =>
      intro w d hw
      rw [List.foldl_cons, callStep_ok env indexer cfg style totalStep speed silenceDuration
        hshape (w, d) c, if_neg hw]
      rw [ih (w ++ List.replicate (truncQ (silenceDuration * (cfg.sampleRate : ℚ))).toNat 0
          ++ chunkWav env indexer cfg style totalStep speed c)
        (d + chunkDur env indexer cfg style totalStep speed c + silenceDuration)
        (by simp [hw])]
      simp only [List.map_cons, List.flatten_cons, List.sum_cons, List.length_cons,
        Except.ok.injEq, Prod.mk.injEq]
      refine ⟨?_, ?_⟩
      · simp [List.append_assoc]
      · push_cast
        ring

/-- The stitched waveform of the claim equals the first waveform followed by
    silence-prefixed later waveforms. -/
lemma specConcat_eq_join (blk : List ℚ) (w : List ℚ) (ws : List (List ℚ)) :
    specConcatWithSilence blk (w :: ws) = w ++ (ws.map fun x => blk ++ x).join := by
  induction ws generalizing w with
  | nil => simp [specConcatWithSilence]
  | cons x rest ih =>
      show w ++ blk ++ specConcatWithSilence blk (x :: rest) = _
      rw [ih x, List.map_cons, List.join]
      simp [List.append_assoc]

/-- C10: when the text produces exactly one chunk, `TextToSpeech::call`
    returns that chunk's inference result unchanged — no silence samples are
    appended, whatever `silenceDuration` is. -/
theorem c10_single_chunk (env : Env) (indexer : List ℤ) (cfg : Config) (text : ByteStr)
    (style : Style) (totalStep : ℕ) (speed silenceDuration : ℚ) (maxLen : ℤ) (c : ByteStr)
    (hshape : style.ttlShape.headD 0 = 1)
    (hchunk : chunkText text maxLen = [c]) :
    TextToSpeech.call env indexer cfg text style totalStep speed silenceDuration maxLen =
      Except.ok (chunkWav env indexer cfg style totalStep speed c,
                 [chunkDur env indexer cfg style totalStep speed c]) := by
  unfold TextToSpeech.call
  rw [if_neg (by rw [hshape]; exact fun hc => hc rfl), hchunk, List.foldl_cons,
    callStep_ok env indexer cfg style totalStep speed silenceDuration hshape ([], 0) c,
    if_pos rfl, List.foldl_nil]

/-- Witness for C10: the single-chunk text `"Hello."` with a large silence
    setting still returns the bare chunk result. -/
theorem c10_witness :
    (styleSingle.ttlShape.headD 0 = 1 ∧
      chunkText [72, 101, 108, 108, 111, 46] 300 = [[72, 101, 108, 108, 111, 46]]) ∧
    TextToSpeech.call envSimple [5] cfgSimple [72, 101, 108, 108, 111, 46] styleSingle 1 1 9 300 =
      Except.ok (chunkWav envSimple [5] cfgSimple styleSingle 1 1 [72, 101, 108, 108, 111, 46],
                 [chunkDur envSimple [5] cfgSimple styleSingle 1 1 [72, 101, 108, 108, 111, 46]]) :=
  ⟨⟨by decide, by decide⟩,
    c10_single_chunk envSimple [5] cfgSimple [72, 101, 108, 108, 111, 46] styleSingle 1 1 9 300
      [72, 101, 108, 108, 111, 46] (by decide) (by decide)⟩

/-- C3 (amended): provided the first chunk's waveform is non-empty, the
    long-form call returns the concatenation of the chunk waveforms with
    `int(silenceDuration * sampleRate)` zero samples between consecutive
    chunks, and the total duration is the sum of the per-chunk durations plus
    `(k - 1) * silenceDuration`. -/
theorem c3_longform_stitching (env : Env) (indexer : List ℤ) (cfg : Config) (text : ByteStr)
    (style : Style) (totalStep : ℕ) (speed silenceDuration : ℚ) (maxLen : ℤ)
    (hshape : style.ttlShape.headD 0 = 1)
    (hwav : chunkWav env indexer cfg style totalStep speed
        ((chunkText text maxLen).headD []) ≠ []) :
    TextToSpeech.call env indexer cfg text style totalStep speed silenceDuration maxLen =
      Except.ok
        (specConcatWithSilence
            (List.replicate (truncQ (silenceDuration * (cfg.sampleRate : ℚ))).toNat 0)
            ((chunkText text maxLen).map (chunkWav env indexer cfg style totalStep speed)),
         [((chunkText text maxLen).map (chunkDur env indexer cfg style totalStep speed)).sum
            + (((chunkText text maxLen).length - 1 : ℕ) : ℚ) * silenceDuration]) := by
  obtain ⟨c0, rest, hck⟩ : ∃ c0 rest, chunkText text maxLen = c0 :: rest := by
    cases h : chunkText text maxLen with
    | nil => exact absurd h (chunkText_ne_nil text maxLen)
    | cons a l => exact ⟨a, l, rfl⟩
  have hw0 : chunkWav env indexer cfg style totalStep speed c0 ≠ [] := by
    rw [hck] at hwav
    exact hwav
  unfold TextToSpeech.call
  rw [if_neg (by rw [hshape]; exact fun hc => hc rfl), hck, List.foldl_cons,
    callStep_ok env indexer cfg style totalStep speed silenceDuration hshape ([], 0) c0,
    if_pos rfl,
    call_fold env indexer cfg style totalStep speed silenceDuration hshape rest
      (chunkWav env indexer cfg style totalStep speed c0)
      (chunkDur env indexer cfg style totalStep speed c0) hw0]
  simp only [List.map_cons, List.sum_cons, List.length_cons, specConcat_eq_join,
    List.map_map, Except.ok.injEq, Prod.mk.injEq, List.cons.injEq, and_true,
    Nat.add_sub_cancel]
  rfl

/-- Counterexample for C3 as stated: with a vocoder returning an empty
    waveform, the first-chunk test (`wav_cat.empty()`) also fires on the
    second chunk of `"A. B."`, so the returned waveform is empty while the
    claimed stitching contains the `int(2 * sampleRate) = 4` inserted silence
    samples (and the first chunk's duration and the silence are dropped from
    the total). -/
theorem c3_counterexample :
    TextToSpeech.call envEmptyWav [5] cfgSimple [65, 46, 32, 66, 46] styleSingle 1 1 2 1 ≠
      Except.ok
        (specConcatWithSilence
            (List.replicate (truncQ ((2 : ℚ) * (cfgSimple.sampleRate : ℚ))).toNat 0)
            ((chunkText [65, 46, 32, 66, 46] 1).map
              (chunkWav envEmptyWav [5] cfgSimple styleSingle 1 1)),
         [((chunkText [65, 46, 32, 66, 46] 1).map
              (chunkDur envEmptyWav [5] cfgSimple styleSingle 1 1)).sum
            + (((chunkText [65, 46, 32, 66, 46] 1).length - 1 : ℕ) : ℚ) * 2]) := by
  have hchunks : chunkText [65, 46, 32, 66, 46] 1 = [[65, 46], [66, 46]] := by decide
  have hshape1 : styleSingle.ttlShape.headD 0 = 1 := by decide
  have hw1 : chunkWav envEmptyWav [5] cfgSimple styleSingle 1 1 [65, 46] = [] := rfl
  have hw2 : chunkWav envEmptyWav [5] cfgSimple styleSingle 1 1 [66, 46] = [] := rfl
  have hcall : TextToSpeech.call envEmptyWav [5] cfgSimple [65, 46, 32, 66, 46] styleSingle 1 1 2 1
      = Except.ok (chunkWav envEmptyWav [5] cfgSimple styleSingle 1 1 [66, 46],
          [chunkDur envEmptyWav [5] cfgSimple styleSingle 1 1 [66, 46]]) := by
    unfold TextToSpeech.call
    rw [if_neg (by rw [hshape1]; exact fun hc => hc rfl), hchunks, List.foldl_cons,
      callStep_ok envEmptyWav [5] cfgSimple styleSingle 1 1 2 hshape1 ([], 0) [65, 46],
      if_pos rfl, List.foldl_cons,
      callStep_ok envEmptyWav [5] cfgSimple styleSingle 1 1 2 hshape1 _ [66, 46]]
    rw [if_pos hw1, List.foldl_nil]
  have hblk : ((2 : ℚ) * (cfgSimple.sampleRate : ℚ)) = 4 := by
    show (2 : ℚ) * ((2 : ℕ) : ℚ) = 4
    norm_num
  have hN : (truncQ ((2 : ℚ) * (cfgSimple.sampleRate : ℚ))).toNat = 4 := by
    rw [hblk]
    show (truncQ ((4 : ℚ))).toNat = 4
    unfold truncQ
    rw [if_neg (by norm_num)]
    norm_num
    decide

  intro h
  rw [hcall, hchunks] at h
  rw [List.map_cons, List.map_cons, List.map_nil, hw1, hw2] at h
  have hwavs : specConcatWithSilence
      (List.replicate (truncQ ((2 : ℚ) * (cfgSimple.sampleRate : ℚ))).toNat 0)
      [([] : List ℚ), []] =
      List.replicate (truncQ ((2 : ℚ) * (cfgSimple.sampleRate : ℚ))).toNat 0 := by
    show ([] : List ℚ) ++ _ ++ ([] : List ℚ) = _
    simp
  rw [hwavs, hN] at h
  have hlen := congrArg (fun e =>
    match e with
    | Except.ok p => p.1.length
    | Except.error _ => 0) h
  simp at hlen

/-- Witness for C3 (amended): a two-chunk text with a non-empty first chunk
    waveform. -/
theorem c3_witness :
    (styleSingle.ttlShape.headD 0 = 1 ∧
      chunkWav envSimple [5] cfgSimple styleSingle 1 1
        ((chunkText [65, 46, 32, 66, 46] 1).headD []) ≠ []) ∧
    TextToSpeech.call envSimple [5] cfgSimple [65, 46, 32, 66, 46] styleSingle 1 1 2 1 =
      Except.ok
        (specConcatWithSilence
            (List.replicate (truncQ ((2 : ℚ) * (cfgSimple.sampleRate : ℚ))).toNat 0)
            ((chunkText [65, 46, 32, 66, 46] 1).map
              (chunkWav envSimple [5] cfgSimple styleSingle 1 1)),
         [((chunkText [65, 46, 32, 66, 46] 1).map
              (chunkDur envSimple [5] cfgSimple styleSingle 1 1)).sum
            + (((chunkText [65, 46, 32, 66, 46] 1).length - 1 : ℕ) : ℚ) * 2]) :=
  ⟨⟨by decide, by decide⟩,
    c3_longform_stitching envSimple [5] cfgSimple [65, 46, 32, 66, 46] styleSingle 1 1 2 1
      (by decide) (by decide)⟩

/-! ## C9: latent mask width equals the latent length -/

lemma truncQ_of_nonneg (q : ℚ) (h : 0 ≤ q) : truncQ q = ⌊q⌋ := by
  unfold truncQ
  rw [if_neg (not_lt.mpr h)]

/-- Ceiling-style integer division of the floor agrees with the floor of the
    ceiling-style rational division: the step identity behind C9. -/
lemma tdiv_ceil_eq_floor (W : ℚ) (c : ℤ) (hW : 0 ≤ W) (hc : 0 < c) :
    Int.tdiv (⌊W⌋ + c - 1) c = ⌊(W + (c : ℚ) - 1) / (c : ℚ)⌋ := by
  have hm : (0 : ℤ) ≤ ⌊W⌋ := Int.floor_nonneg.mpr hW
  have hnum : (0 : ℤ) ≤ ⌊W⌋ + c - 1 := by omega
  have hcQ : (0 : ℚ) < (c : ℚ) := by exact_mod_cast hc
  rw [Int.tdiv_eq_ediv hnum (le_of_lt hc)]
  symm
  rw [Int.floor_eq_iff]
  constructor
  · rw [le_div_iff hcQ]
    have h1 : ((⌊W⌋ + c - 1) / c) * c ≤ ⌊W⌋ + c - 1 := Int.ediv_mul_le _ (ne_of_gt hc)
    have h2 : ((⌊W⌋ : ℚ)) ≤ W := Int.floor_le W
    have h1Q : ((((⌊W⌋ + c - 1) / c) * c : ℤ) : ℚ) ≤ ((⌊W⌋ + c - 1 : ℤ) : ℚ) := by
      exact_mod_cast h1
    push_cast at h1Q
    linarith
  · rw [div_lt_iff hcQ]
    have h1 : ⌊W⌋ + c - 1 < ((⌊W⌋ + c - 1) / c + 1) * c :=
      Int.lt_ediv_add_one_mul_self _ hc
    have h3 : ⌊W⌋ + c ≤ ((⌊W⌋ + c - 1) / c + 1) * c := by
      omega
    have h2 : W < ⌊W⌋ + 1 := Int.lt_floor_add_one W
    have h3Q : ((⌊W⌋ + c : ℤ) : ℚ) ≤ ((((⌊W⌋ + c - 1) / c + 1) * c : ℤ) : ℚ) := by
      exact_mod_cast h3
    push_cast at h3Q
    linarith

/-- Monotonicity (on non-negative durations) of the per-item latent length. -/
lemma latlen_mono (sr : ℕ) (c : ℤ) (hc : 0 < c) (x y : ℚ) (hx : 0 ≤ x) (hxy : x ≤ y) :
    Int.tdiv (truncQ (x * (sr : ℚ)) + c - 1) c
      ≤ Int.tdiv (truncQ (y * (sr : ℚ)) + c - 1) c := by
  have hsr : (0 : ℚ) ≤ (sr : ℚ) := by positivity
  have hx2 : 0 ≤ x * (sr : ℚ) := mul_nonneg hx hsr
  have hy2 : 0 ≤ y * (sr : ℚ) := le_trans hx2 (mul_le_mul_of_nonneg_right hxy hsr)
  rw [truncQ_of_nonneg _ hx2, truncQ_of_nonneg _ hy2]
  have hfl : ⌊x * (sr : ℚ)⌋ ≤ ⌊y * (sr : ℚ)⌋ :=
    Int.floor_le_floor (mul_le_mul_of_nonneg_right hxy hsr)
  have h1 : (0 : ℤ) ≤ ⌊x * (sr : ℚ)⌋ := Int.floor_nonneg.mpr hx2
  have h2 : (0 : ℤ) ≤ ⌊y * (sr : ℚ)⌋ := Int.floor_nonneg.mpr hy2
  rw [Int.tdiv_eq_ediv (by omega) (le_of_lt hc), Int.tdiv_eq_ediv (by omega) (le_of_lt hc)]
  exact Int.ediv_le_ediv hc (by omega)

/-- Maximum of a list mapped through a function monotone on non-negatives. -/
lemma listMaxI_map_mono (f : ℚ → ℤ) (l : List ℚ) (hl : l ≠ [])
    (hmem : ∀ x ∈ l, 0 ≤ x) (hf : ∀ x y, 0 ≤ x → x ≤ y → f x ≤ f y) :
    listMaxI (l.map f) = f (listMaxQ l) := by
  obtain ⟨hmemM, hub⟩ := listMaxQ_spec l hl
  have hmap_ne : l.map f ≠ [] := by
    intro hnil
    exact hl (List.map_eq_nil.mp hnil)
  obtain ⟨hmemI, hubI⟩ := listMaxI_spec (l.map f) hmap_ne
  refine le_antisymm ?_ (hubI _ (List.mem_map_of_mem f hmemM))
  rcases List.mem_map.mp hmemI with ⟨x, hx, hfx⟩
  rw [← hfx]
  exact hf x (listMaxQ l) (hmem x hx) (hub x hx)

/-- C9: in `sampleNoisyLatent`, the width of the latent mask (the maximum over
    items of `ceil(int(duration[i] * sampleRate) / chunkSize)`) equals the
    time dimension of the noise tensor (computed from the float maximum
    duration as `int((wavLenMax + chunkSize - 1) / chunkSize)`), so the mask
    reads of the masking multiply are within bounds and the returned latent
    and mask have equal time dimensions. -/
theorem c9_latent_dims (noise : ℕ → ℕ → ℕ → ℚ) (cfg : Config) (duration : List ℚ)
    (hne : duration ≠ []) (hnn : ∀ d ∈ duration, 0 ≤ d)
    (hb : 1 ≤ cfg.baseChunkSize) (hcf : 1 ≤ cfg.chunkCompressFactor) :
    ((sampleNoisyLatent noise cfg duration).2).length = duration.length ∧
    (∀ m ∈ (sampleNoisyLatent noise cfg duration).2, ∃ row, m = [row] ∧
      row.length = (truncQ ((listMaxQ duration * (cfg.sampleRate : ℚ)
          + ((cfg.baseChunkSize * cfg.chunkCompressFactor : ℕ) : ℚ) - 1)
        / ((cfg.baseChunkSize * cfg.chunkCompressFactor : ℕ) : ℚ))).toNat) ∧
    ((sampleNoisyLatent noise cfg duration).1).length = duration.length ∧
    ∀ item ∈ (sampleNoisyLatent noise cfg duration).1,
      item.length = cfg.latentDim * cfg.chunkCompressFactor ∧
      ∀ ch ∈ item, ch.length = (truncQ ((listMaxQ duration * (cfg.sampleRate : ℚ)
          + ((cfg.baseChunkSize * cfg.chunkCompressFactor : ℕ) : ℚ) - 1)
        / ((cfg.baseChunkSize * cfg.chunkCompressFactor : ℕ) : ℚ))).toNat := by
  have hb0 : (0 : ℤ) < (cfg.baseChunkSize : ℤ) := by exact_mod_cast hb
  have hcf0 : (0 : ℤ) < (cfg.chunkCompressFactor : ℤ) := by exact_mod_cast hcf
  have hcs0 : (0 : ℤ) < (cfg.baseChunkSize : ℤ) * (cfg.chunkCompressFactor : ℤ) :=
    mul_pos hb0 hcf0
  have hcsN : (1 : ℕ) ≤ cfg.baseChunkSize * cfg.chunkCompressFactor := by
    have := Nat.mul_le_mul hb hcf
    simpa using this
  have hcsQ1 : (1 : ℚ) ≤ ((cfg.baseChunkSize * cfg.chunkCompressFactor : ℕ) : ℚ) := by
    exact_mod_cast hcsN
  have hM0 : 0 ≤ listMaxQ duration := hnn _ (listMaxQ_spec duration hne).1
  have hW0 : 0 ≤ listMaxQ duration * (cfg.sampleRate : ℚ) := mul_nonneg hM0 (by positivity)
  have hX : ((cfg.baseChunkSize * cfg.chunkCompressFactor : ℕ) : ℚ)
      = (((cfg.baseChunkSize : ℤ) * (cfg.chunkCompressFactor : ℤ) : ℤ) : ℚ) := by
    push_cast
    ring
  have hwidth : listMaxI ((duration.map fun d => truncQ (d * (cfg.sampleRate : ℚ))).map
        fun len => Int.tdiv
          (len + (cfg.baseChunkSize : ℤ) * (cfg.chunkCompressFactor : ℤ) - 1)
          ((cfg.baseChunkSize : ℤ) * (cfg.chunkCompressFactor : ℤ)))
      = truncQ ((listMaxQ duration * (cfg.sampleRate : ℚ)
          + ((cfg.baseChunkSize * cfg.chunkCompressFactor : ℕ) : ℚ) - 1)
        / ((cfg.baseChunkSize * cfg.chunkCompressFactor : ℕ) : ℚ)) := by
    have hmax := listMaxI_map_mono
      (fun d => Int.tdiv
        (truncQ (d * (cfg.sampleRate : ℚ))
            + (cfg.baseChunkSize : ℤ) * (cfg.chunkCompressFactor : ℤ) - 1)
        ((cfg.baseChunkSize : ℤ) * (cfg.chunkCompressFactor : ℤ)))
      duration hne hnn
      (fun x y hx hxy => latlen_mono cfg.sampleRate _ hcs0 x y hx hxy)
    rw [show ((duration.map fun d => truncQ (d * (cfg.sampleRate : ℚ))).map
        fun len => Int.tdiv
          (len + (cfg.baseChunkSize : ℤ) * (cfg.chunkCompressFactor : ℤ) - 1)
          ((cfg.baseChunkSize : ℤ) * (cfg.chunkCompressFactor : ℤ)))
        = duration.map (fun d => Int.tdiv
          (truncQ (d * (cfg.sampleRate : ℚ))
              + (cfg.baseChunkSize : ℤ) * (cfg.chunkCompressFactor : ℤ) - 1)
          ((cfg.baseChunkSize : ℤ) * (cfg.chunkCompressFactor : ℤ))) from List.map_map _ _ _]
    rw [hmax]
    show Int.tdiv (truncQ (listMaxQ duration * (cfg.sampleRate : ℚ))
        + (cfg.baseChunkSize : ℤ) * (cfg.chunkCompressFactor : ℤ) - 1)
      ((cfg.baseChunkSize : ℤ) * (cfg.chunkCompressFactor : ℤ)) = _
    rw [truncQ_of_nonneg _ hW0,
      tdiv_ceil_eq_floor (listMaxQ duration * (cfg.sampleRate : ℚ)) _ hW0 hcs0]
    have hden : (0 : ℚ) ≤ listMaxQ duration * (cfg.sampleRate : ℚ)
        + ((cfg.baseChunkSize * cfg.chunkCompressFactor : ℕ) : ℚ) - 1 := by
      linarith
    rw [truncQ_of_nonneg _ (div_nonneg hden (by linarith)), hX]
  have hmask : (sampleNoisyLatent noise cfg duration).2
      = ((duration.map fun d => truncQ (d * (cfg.sampleRate : ℚ))).map
          fun len => Int.tdiv
            (len + (cfg.baseChunkSize : ℤ) * (cfg.chunkCompressFactor : ℤ) - 1)
            ((cfg.baseChunkSize : ℤ) * (cfg.chunkCompressFactor : ℤ))).map
          (fun len => [(List.range (listMaxI
            ((duration.map fun d => truncQ (d * (cfg.sampleRate : ℚ))).map
              fun len => Int.tdiv
                (len + (cfg.baseChunkSize : ℤ) * (cfg.chunkCompressFactor : ℤ) - 1)
                ((cfg.baseChunkSize : ℤ) * (cfg.chunkCompressFactor : ℤ)))).toNat).map
            fun (j : ℕ) => if (j : ℤ) < len then (1 : ℚ) else 0]) := rfl
  refine ⟨?_, ?_, ?_, ?_⟩
  · rw [hmask, List.length_map, List.length_map, List.length_map]
  · intro m hm
    rw [hmask] at hm
    rcases List.mem_map.mp hm with ⟨len, _, hlen⟩
    refine ⟨(List.range (listMaxI
        ((duration.map fun d => truncQ (d * (cfg.sampleRate : ℚ))).map
          fun len => Int.tdiv
            (len + (cfg.baseChunkSize : ℤ) * (cfg.chunkCompressFactor : ℤ) - 1)
            ((cfg.baseChunkSize : ℤ) * (cfg.chunkCompressFactor : ℤ)))).toNat).map
        fun (j : ℕ) => if (j : ℤ) < len then (1 : ℚ) else 0, ?_, ?_⟩
    · exact hlen.symm
    · rw [List.length_map, List.length_range, hwidth]
  · show ((List.range duration.length).map _).length = _
    rw [List.length_map, List.length_range]
  · intro item hitem
    rcases List.mem_map.mp hitem with ⟨b, _, hbitem⟩
    constructor
    · rw [← hbitem, List.length_map, List.length_range]
    · intro ch hch
      rw [← hbitem] at hch
      rcases List.mem_map.mp hch with ⟨d, _, hdch⟩
      rw [← hdch, List.length_map, List.length_range]

/-- Witness for C9 at a one-item duration list. -/
theorem c9_witness :
    (([(1 : ℚ)] : List ℚ) ≠ [] ∧ (∀ d ∈ ([(1 : ℚ)] : List ℚ), 0 ≤ d) ∧
      1 ≤ cfgSimple.baseChunkSize ∧ 1 ≤ cfgSimple.chunkCompressFactor) ∧
    ((sampleNoisyLatent (fun _ _ _ => 0) cfgSimple [(1 : ℚ)]).2).length
        = ([(1 : ℚ)] : List ℚ).length :=
  ⟨⟨by decide,
    by
      intro d hd
      rw [List.mem_singleton] at hd
      rw [hd]
      norm_num,
    by decide, by decide⟩,
    (c9_latent_dims (fun _ _ _ => 0) cfgSimple [(1 : ℚ)] (by decide)
      (by
        intro d hd
        rw [List.mem_singleton] at hd
        rw [hd]
        norm_num)
      (by decide) (by decide)).1⟩

/-! ## C6: chunk non-emptiness -/

lemma exists_ink_dropWhile (s : ByteStr) (h : ∃ b ∈ s, isSpaceB b = false) :
    ∃ b ∈ s.dropWhile isSpaceB, isSpaceB b = false := by
  induction s with
  | nil =>
      rcases h with ⟨b, hb, _⟩
      cases hb
  | cons c cs ih =>
      rcases h with ⟨b, hb, hpb⟩
      by_cases hc : isSpaceB c = true
      · rw [List.dropWhile_cons, if_pos hc]
        apply ih
        rcases List.mem_cons.mp hb with rfl | hb2
        · rw [hpb] at hc
          cases hc
        · exact ⟨b, hb2, hpb⟩
      · rw [List.dropWhile_cons, if_neg hc]
        exact ⟨b, hb, hpb⟩

lemma trim_ne_nil (s : ByteStr) (h : hasInk s) : trim s ≠ [] := by
  unfold trim
  intro hnil
  rw [List.reverse_eq_nil_iff] at hnil
  obtain ⟨b, hb, hpb⟩ := exists_ink_dropWhile s h
  obtain ⟨b2, hb2, _⟩ := exists_ink_dropWhile (s.dropWhile isSpaceB).reverse
    ⟨b, List.mem_reverse.mpr hb, hpb⟩
  rw [hnil] at hb2
  cases hb2

lemma head_dropWhile_false (p : ℕ → Bool) (s : ByteStr) :
    s.dropWhile p ≠ [] → p ((s.dropWhile p).headD 0) = false := by
  induction s with
  | nil =>
      intro h
      exact absurd rfl h
  | cons c cs ih =>
      by_cases hc : p c = true
      · rw [List.dropWhile_cons, if_pos hc]
        exact ih
      · rw [List.dropWhile_cons, if_neg hc]
        intro _
        show p c = false
        exact Bool.eq_false_iff.mpr hc

lemma trim_prefix (s : ByteStr) : trim s <+: s.dropWhile isSpaceB := by
  have h1 : (s.dropWhile isSpaceB).reverse.dropWhile isSpaceB <:+
      (s.dropWhile isSpaceB).reverse := List.dropWhile_suffix isSpaceB
  have h2 := List.reverse_prefix.mpr h1
  rw [List.reverse_reverse] at h2
  exact h2

lemma trim_head_nonspace (s : ByteStr) (h : trim s ≠ []) :
    isSpaceB ((trim s).headD 0) = false := by
  obtain ⟨r, hr⟩ := trim_prefix s
  have ht : s.dropWhile isSpaceB ≠ [] := by
    intro h0
    rw [h0] at hr
    rcases List.append_eq_nil.mp hr with ⟨h1, _⟩
    exact h h1
  have hhead := head_dropWhile_false isSpaceB s ht
  cases htr : trim s with
  | nil => exact absurd htr h
  | cons b bs =>
      rw [htr] at hr
      rw [← hr] at hhead
      simpa using hhead

lemma sentGo_pieces (input : ByteStr) :
    ∀ (mode : Option (ByteStr × ByteStr)) (cur : ByteStr),
      (∀ pd2, mode = some pd2 → pieceOK pd2.1) →
      (mode = none → pieceOK cur) →
      (mode = none → cur = [] → input ≠ [] → isSpaceB (input.headD 0) = false) →
      ∀ pr ∈ sentGo mode cur input, pieceOK pr.1 := by
  induction input with
  | nil =>
      intro mode cur h1 h2 _ pr hpr
      cases mode with
      | none =>
          simp only [sentGo, List.mem_singleton] at hpr
          rw [hpr]
          exact h2 rfl
      | some pd =>
          simp only [sentGo, List.mem_cons, List.mem_singleton] at hpr
          rcases hpr with rfl | hpr2
          · exact h1 pd rfl
          · rcases hpr2 with rfl | h0
            · intro habs
              exact absurd rfl habs
            · cases h0
  | cons c rest ih =>
      intro mode cur h1 h2 h3 pr hpr
      cases mode with
      | none =>
          simp only [sentGo] at hpr
          by_cases hcond : (isPunctB c && headIsSpace rest) = true
          · rw [if_pos hcond] at hpr
            refine ih (some (cur, [c])) [] ?_ (by intro h; cases h) (by intro h; cases h) pr hpr
            intro pd2 hpd2
            injection hpd2 with hh
            rw [← hh]
            exact h2 rfl
          · rw [if_neg hcond] at hpr
            refine ih none (cur ++ [c]) (fun pd2 hpd2 => by cases hpd2) ?_ ?_ pr hpr
            · intro _ _
              cases hcur : cur with
              | nil =>
                  have hc2 := h3 rfl hcur (List.cons_ne_nil c rest)
                  simpa [hcur] using hc2
              | cons x xs =>
                  have hx := h2 rfl (by rw [hcur]; exact List.cons_ne_nil x xs)
                  rw [hcur] at hx
                  simpa using hx
            · intro _ habs
              exact absurd habs (by simp)
      | some pd =>
          simp only [sentGo] at hpr
          by_cases hsp : isSpaceB c = true
          · rw [if_pos hsp] at hpr
            refine ih (some (pd.1, c :: pd.2)) [] ?_ (by intro h; cases h)
              (by intro h; cases h) pr hpr
            intro pd2 hpd2
            injection hpd2 with hh
            rw [← hh]
            exact h1 pd rfl
          · rw [if_neg hsp] at hpr
            rcases List.mem_cons.mp hpr with rfl | hpr2
            · exact h1 pd rfl
            · by_cases hcond : (isPunctB c && headIsSpace rest) = true
              · rw [if_pos hcond] at hpr2
                refine ih (some ([], [c])) [] ?_ (by intro h; cases h)
                  (by intro h; cases h) pr hpr2
                intro pd2 hpd2
                injection hpd2 with hh
                rw [← hh]
                intro habs
                exact absurd rfl habs
              · rw [if_neg hcond] at hpr2
                refine ih none [c] (fun pd2 hpd2 => by cases hpd2) ?_ ?_ pr hpr2
                · intro _ _
                  show isSpaceB c = false
                  exact Bool.eq_false_iff.mpr hsp
                · intro _ habs
                  exact absurd habs (by simp)

lemma splitSentences_ink (para : ByteStr) (hne : para ≠ [])
    (hhead : isSpaceB (para.headD 0) = false) :
    ∀ s ∈ splitSentences para, hasInk s := by
  intro s hs
  unfold splitSentences at hs
  rcases List.mem_filterMap.mp hs with ⟨pr, hpr, hyes⟩
  by_cases hemp : pr.1.isEmpty
  · rw [if_pos hemp] at hyes
    cases hyes
  · rw [if_neg hemp] at hyes
    have hseq : pr.1 ++ pr.2 = s := Option.some.inj hyes
    have hok := sentGo_pieces para none [] (fun pd2 hpd2 => by cases hpd2)
      (fun _ habs => absurd rfl habs)
      (fun _ _ _ => hhead) pr hpr
    have hne1 : pr.1 ≠ [] := fun hx => hemp (by rw [hx]; rfl)
    have hh := hok hne1
    cases hp1 : pr.1 with
    | nil => exact absurd hp1 hne1
    | cons b bs =>
        refine ⟨b, ?_, ?_⟩
        · rw [← hseq, hp1]
          exact List.mem_append_left _ (List.mem_cons_self b bs)
        · rw [hp1] at hh
          simpa using hh

lemma packGo_ne_nil (m : ℤ) (sents : List ByteStr) :
    ∀ cur : ByteStr,
      (∀ s ∈ sents, hasInk s) →
      (cur = [] ∨ hasInk cur) →
      ∀ c ∈ packGo m cur sents, c ≠ [] := by
  induction sents with
  | nil =>
      intro cur _ hcur c hc
      simp only [packGo] at hc
      by_cases h : cur = []
      · rw [if_pos h] at hc
        cases hc
      · rw [if_neg h] at hc
        rw [List.mem_singleton.mp hc]
        rcases hcur with rfl | hink
        · exact absurd rfl h
        · exact trim_ne_nil cur hink
  | cons s rest ih =>
      intro cur hs hcur c hc
      have hsink : hasInk s := hs s (List.mem_cons_self s rest)
      have hrest : ∀ t ∈ rest, hasInk t := fun t ht => hs t (List.mem_cons_of_mem s ht)
      simp only [packGo] at hc
      by_cases hfit : ((cur.length : ℤ) + (s.length : ℤ) + 1) ≤ m
      · rw [if_pos hfit] at hc
        refine ih _ hrest ?_ c hc
        right
        by_cases hcur0 : cur = []
        · rw [if_pos hcur0]
          exact hsink
        · rw [if_neg hcur0]
          obtain ⟨b, hb, hpb⟩ := hsink
          exact ⟨b, List.mem_append_right cur (List.mem_cons_of_mem 32 hb), hpb⟩
      · rw [if_neg hfit] at hc
        by_cases hcur0 : cur = []
        · rw [if_pos hcur0] at hc
          exact ih s hrest (Or.inr hsink) c hc
        · rw [if_neg hcur0] at hc
          rcases List.mem_cons.mp hc with rfl | hc2
          · rcases hcur with rfl | hink
            · exact absurd rfl hcur0
            · exact trim_ne_nil cur hink
          · exact ih s hrest (Or.inr hsink) c hc2

lemma mem_chunk_fold (m : ℤ) (paras : List ByteStr) :
    ∀ (init : List ByteStr) (x : ByteStr),
      x ∈ paras.foldl (fun acc para => acc ++ packGo m [] (splitSentences para)) init →
      x ∈ init ∨ ∃ para ∈ paras, x ∈ packGo m [] (splitSentences para) := by
  induction paras with
  | nil =>
      intro init x hx
      exact Or.inl hx
  | cons p ps ih =>
      intro init x hx
      rw [List.foldl_cons] at hx
      rcases ih _ x hx with hinit | ⟨para, hpara, hxp⟩
      · rcases List.mem_append.mp hinit with h | h
        · exact Or.inl h
        · exact Or.inr ⟨p, List.mem_cons_self p ps, h⟩
      · exact Or.inr ⟨para, List.mem_cons_of_mem p hpara, hxp⟩

lemma splitParagraphs_head (text : ByteStr) :
    ∀ para ∈ splitParagraphs text, para ≠ [] ∧ isSpaceB (para.headD 0) = false := by
  intro para hpara
  unfold splitParagraphs at hpara
  rcases List.mem_filter.mp hpara with ⟨hmem, hne⟩
  rcases List.mem_map.mp hmem with ⟨piece, _, htrim⟩
  have hne2 : para ≠ [] := by
    intro h0
    rw [h0] at hne
    cases hne
  refine ⟨hne2, ?_⟩
  rw [← htrim]
  exact trim_head_nonspace piece (by rw [htrim]; exact hne2)

/-- C6 (amended): `chunkText` always returns at least one chunk; provided the
    input contains a non-whitespace byte, every returned chunk is non-empty.
    (On whitespace-only input the single fallback chunk `trim text` is the
    empty string.) -/
theorem c6_chunk_nonempty (text : ByteStr) (maxLen : ℤ) :
    1 ≤ (chunkText text maxLen).length ∧
    (hasInk text → ∀ c ∈ chunkText text maxLen, c ≠ []) := by
  constructor
  · by_cases h : (splitParagraphs text).foldl
        (fun acc para => acc ++ packGo maxLen [] (splitSentences para)) [] = []
    · unfold chunkText
      rw [if_pos h]
      exact le_refl 1
    · unfold chunkText
      rw [if_neg h]
      exact List.length_pos.mpr h
  · intro hink c hc
    unfold chunkText at hc
    by_cases h : (splitParagraphs text).foldl
        (fun acc para => acc ++ packGo maxLen [] (splitSentences para)) [] = []
    · rw [if_pos h] at hc
      rw [List.mem_singleton.mp hc]
      exact trim_ne_nil text hink
    · rw [if_neg h] at hc
      rcases mem_chunk_fold maxLen (splitParagraphs text) [] c hc with h0 | ⟨para, hpara, hcp⟩
      · cases h0
      · obtain ⟨hne, hhead⟩ := splitParagraphs_head text para hpara
        exact packGo_ne_nil maxLen (splitSentences para) []
          (splitSentences_ink para hne hhead) (Or.inl rfl) c hcp

/-- Witness for C6 (amended) on the two-chunk text `"A. B."`. -/
theorem c6_witness :
    1 ≤ (chunkText [65, 46, 32, 66, 46] 1).length ∧
    (∀ c ∈ chunkText [65, 46, 32, 66, 46] 1, c ≠ []) :=
  ⟨(c6_chunk_nonempty [65, 46, 32, 66, 46] 1).1,
   (c6_chunk_nonempty [65, 46, 32, 66, 46] 1).2 ⟨65, by decide, by decide⟩⟩
